import Mathlib

/-!
Shallow embedding of the hybrid retrieval engine in src/backend/retriever.py.

Conventions of the embedding:
* Python floats are modelled exactly: the RRF fused scores (sums of terms
  1/(k+rank)) live in ℚ, the BM25 scores (which involve math.log) live in ℝ.
* Python dicts that are used as insertion-ordered key/value maps are modelled
  as association lists (List (String × β)) in insertion order; dict.setdefault
  appends at the end exactly as CPython does for a missing key.
* Python's sorted(..., key=f, reverse=True) is a stable sort by descending key;
  List.insertionSort with the relation "b's key ≤ a's key" is stable with the
  same tie behaviour, hence extensionally equal to the code's sort.
* External collaborators that are not part of this repository (the sentence
  embedding model, the chromadb vector store) enter as parameters, or are
  modelled from the spec where their effect matters (see chromaAdd).
-/

/-! ### Tokenizer (retriever.py lines 14-17) -/

/-- One character of the regex class [A-Za-z0-9_] of _word_re. -/
def isWordChar (c : Char) : Bool :=
  decide (('A' ≤ c ∧ c ≤ 'Z') ∨ ('a' ≤ c ∧ c ≤ 'z') ∨ ('0' ≤ c ∧ c ≤ '9') ∨ c = '_')

/-- ASCII lowercasing; on tokens made of [A-Za-z0-9_] this is exactly
Python str.lower. -/
def lowerAscii (c : Char) : Char :=
  if 'A' ≤ c ∧ c ≤ 'Z' then Char.ofNat (c.toNat + 32) else c

/-- Maximal runs of word characters, i.e. _word_re.findall; the accumulator
holds the current run reversed. -/
def wordRuns : List Char → List Char → List String
  | [], acc => if acc.isEmpty then [] else [String.mk acc.reverse]
  | c :: cs, acc =>
    if isWordChar c then wordRuns cs (c :: acc)
    else if acc.isEmpty then wordRuns cs []
    else String.mk acc.reverse :: wordRuns cs []

/-- retriever.tokenize: lowercased [A-Za-z0-9_]+ runs of the text. -/
def tokenize (text : String) : List String :=
  (wordRuns text.data []).map (fun s => String.mk (s.data.map lowerAscii))

/-! ### The fused dict of Retriever._rrf (retriever.py lines 122-133)

The payload type α stands for the result dicts flowing in from the two
searches; idOf reads their "id" key. -/

/-- An entry of the fused dict: the payload dict d it was created from,
merged with the _rrf accumulator and the _dense_rank / _sparse_rank key
(only the pass that created the entry records its rank, as in the code). -/
structure FEntry (α : Type) where
  payload : α
  rrf : ℚ
  denseRank : Option Nat
  sparseRank : Option Nat
deriving DecidableEq

variable {α β V : Type}

/-- Keys of an insertion-ordered dict. -/
def dkeys (d : List (String × β)) : List String := d.map Prod.fst

/-- dict.setdefault: insert at the end when the key is missing. -/
def dsetdefault (d : List (String × β)) (i : String) (v : β) : List (String × β) :=
  if i ∈ dkeys d then d else d ++ [(i, v)]

/-- In-place update of the value stored under a key. -/
def dmodify (d : List (String × β)) (i : String) (f : β → β) : List (String × β) :=
  d.map (fun p => if p.1 = i then (p.1, f p.2) else p)

/-- First-match lookup. -/
def dget (d : List (String × β)) (i : String) : Option β :=
  (d.find? (fun p => p.1 = i)).map Prod.snd

/-- fused[id]["_rrf"] += 1.0 / (k + rank). -/
def bump (k rank : Nat) (e : FEntry α) : FEntry α :=
  { e with rrf := e.rrf + 1 / ((k : ℚ) + rank) }

/-- The entry d | {"_rrf": 0.0, "_dense_rank": rank}. -/
def mkDense (d : α) (rank : Nat) : FEntry α := ⟨d, 0, some rank, none⟩

/-- The entry d | {"_rrf": 0.0, "_sparse_rank": rank}. -/
def mkSparse (d : α) (rank : Nat) : FEntry α := ⟨d, 0, none, some rank⟩

/-- One "for rank, d in enumerate(lst, start=1)" loop of Retriever._rrf:
setdefault the entry for d's id, then add 1/(k+rank) to its _rrf. -/
def rrfPass (idOf : α → String) (k : Nat) (mk : α → Nat → FEntry α) :
    List (String × FEntry α) → List α → Nat → List (String × FEntry α)
  | fused, [], _ => fused
  | fused, d :: rest, rank =>
    rrfPass idOf k mk
      (dmodify (dsetdefault fused (idOf d) (mk d rank)) (idOf d) (bump k rank))
      rest (rank + 1)

/-- Descending order on the _rrf score: the sort key of merged.sort. -/
def rrfGE (a b : FEntry α) : Prop := b.rrf ≤ a.rrf

instance : DecidableRel (rrfGE (α := α)) :=
  fun a b => inferInstanceAs (Decidable (b.rrf ≤ a.rrf))

instance : IsTotal (FEntry α) rrfGE := ⟨fun a b => le_total b.rrf a.rrf⟩

instance : IsTrans (FEntry α) rrfGE := ⟨fun _ _ _ h h2 => le_trans h2 h⟩

/-- Retriever._rrf: the dense pass, then the sparse pass over the shared
fused dict, then the values sorted by _rrf descending (stable). -/
def rrf (idOf : α → String) (denseList sparseList : List α) (k : Nat) :
    List (FEntry α) :=
  List.insertionSort rrfGE
    ((rrfPass idOf k mkSparse (rrfPass idOf k mkDense [] denseList 1) sparseList 1).map
      Prod.snd)

/-! ### Specification-side functions used to state properties of rrf -/

/-- Total RRF contribution of id i collected from list l whose first element
has rank r: the sum of 1/(k+rank) over the occurrences of i in l. -/
def contribFrom (idOf : α → String) (k : Nat) : List α → Nat → String → ℚ
  | [], _, _ => 0
  | d :: rest, r, i =>
    (if idOf d = i then 1 / ((k : ℚ) + r) else 0) + contribFrom idOf k rest (r + 1) i

/-- Contribution of a whole list, ranks starting at 1 as in enumerate. -/
def contrib (idOf : α → String) (k : Nat) (l : List α) (i : String) : ℚ :=
  contribFrom idOf k l 1 i

/-- First element of l carrying id i, together with its 0-based index. -/
def firstOcc (idOf : α → String) : List α → String → Option (α × Nat)
  | [], _ => none
  | d :: rest, i =>
    if idOf d = i then some (d, 0)
    else (firstOcc idOf rest i).map (fun p => (p.1, p.2 + 1))

/-- Contribution of the unique 1-based position of i in l (0 when absent);
coincides with contrib when the ids of l are distinct. -/
def posContrib (idOf : α → String) (k : Nat) (l : List α) (i : String) : ℚ :=
  match firstOcc idOf l i with
  | some p => 1 / ((k : ℚ) + (p.2 + 1))
  | none => 0

/-- Closed form of the entry that the fused dict of Retriever._rrf holds
under key i: payload and recorded rank come from the first dense occurrence
when i is in the dense list, otherwise from the first sparse occurrence, and
the score is the sum of both lists' contributions. -/
def fuseSpec (idOf : α → String) (denseList sparseList : List α) (k : Nat)
    (i : String) : Option (FEntry α) :=
  match firstOcc idOf denseList i with
  | some p =>
    some ⟨p.1, contrib idOf k denseList i + contrib idOf k sparseList i,
      some (p.2 + 1), none⟩
  | none =>
    (firstOcc idOf sparseList i).map
      (fun p => ⟨p.1, contrib idOf k denseList i + contrib idOf k sparseList i,
        none, some (p.2 + 1)⟩)

/-- The keys a pass appends to the fused dict: ids of l in order of first
occurrence, skipping ids already seen. -/
def newKeys (idOf : α → String) : List α → List String → List String
  | [], _ => []
  | d :: rest, seen =>
    if idOf d ∈ seen then newKeys idOf rest seen
    else idOf d :: newKeys idOf rest (idOf d :: seen)

/-- A concrete payload shape used to exercise the fusion on closed inputs:
the dict {"id": .., "text": .., "meta": ..} produced by the searches. -/
structure SrcDoc where
  id : String
  text : String
  source : Option String
deriving DecidableEq

/-! ### BM25 over the SQLite rows (retriever.py lines 104-119, rank_bm25's
BM25Okapi with its default constants k1 = 1.5, b = 0.75, epsilon = 0.25) -/

/-- A row of the docs table: id TEXT PRIMARY KEY, text, source. -/
structure SRow where
  id : String
  text : String
  source : Option String
deriving DecidableEq

/-- A result dict of search_dense / search_bm25: {"id", "text", "meta"}
plus, for sparse results, the "_bm25" score. The meta dict of a row is
{"source": r[2]} if r[2] else {}, so it holds at most the source tag. -/
structure Hit where
  id : String
  text : String
  meta : Option String
  bm25 : Option ℝ

/-- _sqlite_all_docs meta field: {"source": r[2]} if r[2] else {} — an empty
or missing source yields the empty dict. -/
def rowMeta (r : SRow) : Option String :=
  match r.source with
  | some s => if s = "" then none else some s
  | none => none

/-- BM25Okapi default k1. -/
noncomputable def bm25K1 : ℝ := 3 / 2

/-- BM25Okapi default b. -/
noncomputable def bm25B : ℝ := 3 / 4

/-- Number of occurrences of term t in a tokenized document. -/
def termFreq (doc : List String) (t : String) : Nat :=
  (doc.filter (fun w => w == t)).length

/-- nd[t]: the number of corpus documents containing t. -/
def docFreq (corpus : List (List String)) (t : String) : Nat :=
  (corpus.filter (fun d => d.contains t)).length

/-- The distinct terms of the corpus (the keys of BM25Okapi's idf dict). -/
def bm25Vocab (corpus : List (List String)) : List String :=
  corpus.flatten.dedup

/-- avgdl: total token count divided by the number of documents. -/
noncomputable def avgdl (corpus : List (List String)) : ℝ :=
  ((corpus.map List.length).sum : ℝ) / (corpus.length : ℝ)

/-- The raw Okapi idf log((N - df + 0.5) / (df + 0.5)), as computed in
BM25Okapi._calc_idf. -/
noncomputable def rawIdf (corpus : List (List String)) (t : String) : ℝ :=
  Real.log ((corpus.length : ℝ) - (docFreq corpus t : ℝ) + 1 / 2) -
    Real.log ((docFreq corpus t : ℝ) + 1 / 2)

/-- average_idf over the distinct corpus terms. -/
noncomputable def averageIdf (corpus : List (List String)) : ℝ :=
  ((bm25Vocab corpus).map (rawIdf corpus)).sum / ((bm25Vocab corpus).length : ℝ)

/-- self.idf.get(q) or 0: terms outside the corpus vocabulary score 0, and a
negative raw idf is replaced by epsilon * average_idf with epsilon = 0.25. -/
noncomputable def idfOf (corpus : List (List String)) (t : String) : ℝ :=
  if t ∈ bm25Vocab corpus then
    (if rawIdf corpus t < 0 then (1 / 4) * averageIdf corpus else rawIdf corpus t)
  else 0

/-- One document's score in BM25Okapi.get_scores: the sum over the query
terms q of idf(q) * f*(k1+1) / (f + k1*(1 - b + b*|doc|/avgdl)). -/
noncomputable def bm25ScoreDoc (corpus : List (List String)) (q : List String)
    (doc : List String) : ℝ :=
  q.foldl
    (fun acc t =>
      acc + idfOf corpus t *
        ((termFreq doc t : ℝ) * (bm25K1 + 1) /
          ((termFreq doc t : ℝ) +
            bm25K1 * (1 - bm25B + bm25B * (doc.length : ℝ) / avgdl corpus))))
    0

/-- Descending order on the BM25 score attached to each row: the sort key of
sorted(zip(docs, scores), key=lambda x: x[1], reverse=True). -/
def scoreGE (a b : SRow × ℝ) : Prop := b.2 ≤ a.2

noncomputable instance : DecidableRel scoreGE :=
  fun a b => Real.decidableLE b.2 a.2

instance : IsTotal (SRow × ℝ) scoreGE := ⟨fun a b => le_total b.2 a.2⟩

instance : IsTrans (SRow × ℝ) scoreGE := ⟨fun _ _ _ h h2 => le_trans h2 h⟩

/-- Retriever.search_bm25: empty store returns []; otherwise score every
stored document against the tokenized query over the whole current corpus,
sort the (doc, score) pairs by score descending (stably), keep the first k,
and attach the score under "_bm25". -/
noncomputable def search_bm25 (docs : List SRow) (query : String) (k : Nat) :
    List Hit :=
  if docs = [] then []
  else
    let corpus := docs.map (fun d => tokenize d.text)
    let scored := docs.map (fun d => (d, bm25ScoreDoc corpus (tokenize query) (tokenize d.text)))
    ((List.insertionSort scoreGE scored).take k).map
      (fun p => ⟨p.1.id, p.1.text, rowMeta p.1, some p.2⟩)

/-! ### Ingestion state: the Chroma collection and the SQLite docs table
(retriever.py lines 45-48 and 75-90) -/

/-- An entry of the Chroma collection: document text, metadata dict and the
embedding vector produced by the encoder (the vector type V is abstract). -/
structure DRow (V : Type) where
  id : String
  text : String
  meta : List (String × String)
  emb : V

/-- The two persistent stores the Retriever writes to. -/
structure RetState (V : Type) where
  dense : List (DRow V)
  sparse : List SRow

/-- metadatas[i].get("source"). -/
def metaGet (m : List (String × String)) (key : String) : Option String :=
  (m.find? (fun p => p.1 == key)).map Prod.snd

/-- INSERT OR REPLACE of one row: the conflicting row (same primary key) is
deleted and the new row inserted with a fresh rowid, i.e. at the end. -/
def sqliteReplace (rows : List SRow) (p : SRow) : List SRow :=
  (rows.filter (fun x => x.id != p.id)) ++ [p]

/-- Retriever._sqlite_add: executemany of INSERT OR REPLACE over the pairs. -/
def sqlite_add (rows : List SRow) (pairs : List SRow) : List SRow :=
  pairs.foldl sqliteReplace rows

/-- Modelled from the spec: the write of one row into the Dense Vector Index
(chromadb's Collection.add, an external library not under src). The spec's
write path upserts into the index keyed by the unique document id, so the
write replaces any row under the same id. -/
def chromaReplace (col : List (DRow V)) (r : DRow V) : List (DRow V) :=
  (col.filter (fun x => x.id != r.id)) ++ [r]

/-- Modelled from the spec: chromadb Collection.add over a batch of rows,
one keyed write per row. -/
def chromaAdd (col : List (DRow V)) (newRows : List (DRow V)) : List (DRow V) :=
  newRows.foldl chromaReplace col

/-- Retriever.add_texts. enc is the external sentence encoder (encode with
normalize_embeddings=True); uuids stands for the stream of fresh uuid4
identifiers drawn when ids is None; metadatas defaults to empty dicts. The
code returns len(texts); the model returns the updated stores, which is the
part the claims are about. -/
def add_texts (enc : String → V) (uuids : List String) (st : RetState V)
    (texts : List String) (metadatas : Option (List (List (String × String))))
    (ids : Option (List String)) : RetState V :=
  if texts = [] then st
  else
    let theIds := ids.getD uuids
    let metas := metadatas.getD (texts.map (fun _ => []))
    let rows := theIds.zip (texts.zip metas)
    { dense := chromaAdd st.dense (rows.map (fun r => ⟨r.1, r.2.1, r.2.2, enc r.2.1⟩)),
      sparse := sqlite_add st.sparse (rows.map (fun r => ⟨r.1, r.2.1, metaGet r.2.2 "source"⟩)) }

/-- The dense/sparse consistency invariant of the spec, restricted to what
both stores share: the same ids carrying the same text are present in the
Chroma collection and in the docs table. -/
def consistent (st : RetState V) : Prop :=
  ∀ i t, (∃ r ∈ st.dense, r.id = i ∧ r.text = t) ↔ (∃ s ∈ st.sparse, s.id = i ∧ s.text = t)

/-- Retriever.hybrid_search: run the dense search (an external call into the
encoder and Chroma, abstracted as the searchDense parameter) and the sparse
search, fuse with _rrf, truncate to top_k. -/
noncomputable def hybrid_search (searchDense : String → Nat → List Hit)
    (docs : List SRow) (query : String) (k_dense k_sparse k_rrf top_k : Nat) :
    List (FEntry Hit) :=
  (rrf Hit.id (searchDense query k_dense) (search_bm25 docs query k_sparse) k_rrf).take
    top_k

/-! ### Concrete fixtures used to exercise the definitions on closed inputs -/

/-- A stored row with text "hello". -/
def rowD1 : SRow := ⟨"d1", "hello", none⟩

/-- A dense-style result dict with id "a". -/
def docA : SrcDoc := ⟨"a", "alpha", none⟩

/-- A sparse-style result dict sharing id "a" but carrying different text. -/
def docA2 : SrcDoc := ⟨"a", "alpha sparse", none⟩

/-- A result dict with id "b". -/
def docB : SrcDoc := ⟨"b", "beta", none⟩

/-! ## Lemmas about the insertion-ordered dict -/

theorem dkeys_nil : dkeys ([] : List (String × β)) = [] := rfl

theorem dkeys_append (d d' : List (String × β)) :
    dkeys (d ++ d') = dkeys d ++ dkeys d' := by
  simp [dkeys]

theorem mem_dkeys {d : List (String × β)} {i : String} :
    i ∈ dkeys d ↔ ∃ e, (i, e) ∈ d := by
  constructor
  · intro h
    rcases List.mem_map.mp h with ⟨p, hp, hfst⟩
    exact ⟨p.2, by simpa [← hfst] using hp⟩
  · rintro ⟨e, he⟩
    exact List.mem_map.mpr ⟨(i, e), he, rfl⟩

theorem dkeys_dmodify (d : List (String × β)) (i : String) (f : β → β) :
    dkeys (dmodify d i f) = dkeys d := by
  simp only [dkeys, dmodify, List.map_map]
  exact List.map_congr_left (fun p _ => by by_cases h : p.1 = i <;> simp [h])

theorem dsetdefault_of_mem {d : List (String × β)} {i : String} (v : β)
    (h : i ∈ dkeys d) : dsetdefault d i v = d := by
  simp [dsetdefault, h]

theorem dkeys_dsetdefault_of_not_mem {d : List (String × β)} {i : String} (v : β)
    (h : i ∉ dkeys d) : dkeys (dsetdefault d i v) = dkeys d ++ [i] := by
  rw [dsetdefault, if_neg h, dkeys_append]
  rfl

theorem dget_nil (i : String) : dget ([] : List (String × β)) i = none := rfl

theorem dget_cons (p : String × β) (d : List (String × β)) (i : String) :
    dget (p :: d) i = if p.1 = i then some p.2 else dget d i := by
  by_cases h : p.1 = i <;> simp [dget, List.find?_cons, h]

theorem dget_of_not_mem {d : List (String × β)} {i : String} (h : i ∉ dkeys d) :
    dget d i = none := by
  induction d with
  | nil => rfl
  | cons p rest ih =>
    rw [dget_cons]
    simp only [dkeys, List.map_cons, List.mem_cons] at h
    push_neg at h
    rw [if_neg (fun hh => h.1 hh.symm), ih (by simpa [dkeys] using h.2)]

theorem dget_append_ne (d : List (String × β)) {i j : String} (v : β) (h : j ≠ i) :
    dget (d ++ [(i, v)]) j = dget d j := by
  induction d with
  | nil =>
    rw [List.nil_append, dget_cons, dget_nil, if_neg]
    exact fun hh => h hh.symm
  | cons p rest ih =>
    rw [List.cons_append, dget_cons, dget_cons, ih]

theorem dget_append_self {d : List (String × β)} {i : String} (v : β)
    (h : i ∉ dkeys d) : dget (d ++ [(i, v)]) i = some v := by
  induction d with
  | nil => rw [List.nil_append, dget_cons, if_pos rfl]
  | cons p rest ih =>
    simp only [dkeys, List.map_cons, List.mem_cons] at h
    push_neg at h
    rw [List.cons_append, dget_cons, if_neg (fun hh => h.1 hh.symm),
      ih (by simpa [dkeys] using h.2)]

theorem dget_dmodify (d : List (String × β)) (i : String) (f : β → β) (j : String) :
    dget (dmodify d i f) j = if j = i then (dget d i).map f else dget d j := by
  induction d with
  | nil => by_cases h : j = i <;> simp [dmodify, dget_nil, h]
  | cons p rest ih =>
    simp only [dmodify, List.map_cons] at ih ⊢
    simp only [dget_cons]
    split_ifs <;> simp_all

theorem dget_some_mem {d : List (String × β)} {i : String} {e : β}
    (h : dget d i = some e) : (i, e) ∈ d := by
  induction d with
  | nil => simp [dget_nil] at h
  | cons p rest ih =>
    rw [dget_cons] at h
    by_cases hpi : p.1 = i
    · rw [if_pos hpi] at h
      have hpe : p = (i, e) := by
        cases p with
        | mk a b =>
          simp only at hpi
          simp only [Option.some.injEq] at h
          rw [hpi, h]
      rw [← hpe]
      exact List.mem_cons_self p rest
    · rw [if_neg hpi] at h
      exact List.mem_cons_of_mem _ (ih h)

theorem mem_dget {d : List (String × β)} (hnd : (dkeys d).Nodup) {i : String}
    {e : β} (h : (i, e) ∈ d) : dget d i = some e := by
  induction d with
  | nil => simp at h
  | cons p rest ih =>
    simp only [dkeys, List.map_cons, List.nodup_cons] at hnd
    rcases List.mem_cons.mp h with h1 | h1
    · rw [← h1, dget_cons, if_pos rfl]
    · have hne : p.1 ≠ i := by
        intro hh
        exact hnd.1 (by
          rw [hh]
          exact mem_dkeys.mpr ⟨e, h1⟩)
      rw [dget_cons, if_neg hne]
      exact ih (by simpa [dkeys] using hnd.2) h1

/-! ## Lemmas about contributions, first occurrences and new keys -/

theorem contribFrom_nil (idOf : α → String) (k r : Nat) (i : String) :
    contribFrom idOf k [] r i = 0 := rfl

theorem contribFrom_cons (idOf : α → String) (k : Nat) (d : α) (rest : List α)
    (r : Nat) (i : String) :
    contribFrom idOf k (d :: rest) r i =
      (if idOf d = i then 1 / ((k : ℚ) + r) else 0) + contribFrom idOf k rest (r + 1) i :=
  rfl

theorem contribFrom_of_not_mem (idOf : α → String) (k : Nat) {l : List α}
    {i : String} (h : i ∉ l.map idOf) : ∀ r, contribFrom idOf k l r i = 0 := by
  induction l with
  | nil => intro r; rfl
  | cons d rest ih =>
    intro r
    simp only [List.map_cons, List.mem_cons] at h
    push_neg at h
    rw [contribFrom_cons, if_neg (fun hh => h.1 hh.symm), ih h.2, add_zero]

theorem firstOcc_eq_none (idOf : α → String) {l : List α} {i : String} :
    firstOcc idOf l i = none ↔ i ∉ l.map idOf := by
  induction l with
  | nil => simp [firstOcc]
  | cons d rest ih =>
    by_cases h : idOf d = i
    · simp [firstOcc, h]
    · simp only [firstOcc, h, if_false, List.map_cons, List.mem_cons,
        Option.map_eq_none', ih]
      constructor
      · intro hh
        push_neg
        exact ⟨fun hhh => h hhh.symm, hh⟩
      · intro hh
        push_neg at hh
        exact hh.2

theorem firstOcc_some (idOf : α → String) {l : List α} {i : String} {p : α × Nat}
    (h : firstOcc idOf l i = some p) : p.1 ∈ l ∧ idOf p.1 = i := by
  induction l generalizing p with
  | nil => simp [firstOcc] at h
  | cons d rest ih =>
    by_cases hd : idOf d = i
    · rw [firstOcc, if_pos hd] at h
      cases h
      exact ⟨List.mem_cons_self d rest, hd⟩
    · rw [firstOcc, if_neg hd] at h
      rcases Option.map_eq_some'.mp h with ⟨q, hq, hqp⟩
      rcases ih hq with ⟨hmem, hid⟩
      rw [← hqp]
      exact ⟨List.mem_cons_of_mem d hmem, hid⟩

theorem firstOcc_isSome (idOf : α → String) {l : List α} {i : String}
    (h : i ∈ l.map idOf) : ∃ p, firstOcc idOf l i = some p := by
  cases hfo : firstOcc idOf l i with
  | none => exact absurd ((firstOcc_eq_none idOf).mp hfo) (by simpa using h)
  | some p => exact ⟨p, rfl⟩

theorem mem_newKeys (idOf : α → String) (l : List α) :
    ∀ seen x, x ∈ newKeys idOf l seen ↔ x ∈ l.map idOf ∧ x ∉ seen := by
  induction l with
  | nil => intro seen x; simp [newKeys]
  | cons d rest ih =>
    intro seen x
    by_cases hd : idOf d ∈ seen
    · rw [newKeys, if_pos hd, ih]
      simp only [List.map_cons, List.mem_cons]
      have hsub : x = idOf d → x ∈ seen := fun hx => by rw [hx]; exact hd
      tauto
    · rw [newKeys, if_neg hd]
      simp only [List.mem_cons, ih, List.map_cons]
      have hsub : x = idOf d → x ∉ seen := fun hx => by rw [hx]; exact hd
      tauto

theorem newKeys_congr (idOf : α → String) (l : List α) :
    ∀ seen seen2, (∀ x, x ∈ seen ↔ x ∈ seen2) →
      newKeys idOf l seen = newKeys idOf l seen2 := by
  induction l with
  | nil => intro seen seen2 _; rfl
  | cons d rest ih =>
    intro seen seen2 hiff
    by_cases hd : idOf d ∈ seen
    · rw [newKeys, if_pos hd, newKeys, if_pos ((hiff _).mp hd), ih _ _ hiff]
    · have hiff2 : ∀ x, x ∈ idOf d :: seen ↔ x ∈ idOf d :: seen2 := by
        intro x
        simp only [List.mem_cons]
        exact or_congr Iff.rfl (hiff x)
      rw [newKeys, if_neg hd, newKeys, if_neg (fun hh => hd ((hiff _).mpr hh)),
        ih _ _ hiff2]

theorem nodup_newKeys (idOf : α → String) (l : List α) :
    ∀ seen, (newKeys idOf l seen).Nodup := by
  induction l with
  | nil => intro seen; simp [newKeys]
  | cons d rest ih =>
    intro seen
    by_cases hd : idOf d ∈ seen
    · rw [newKeys, if_pos hd]; exact ih seen
    · rw [newKeys, if_neg hd]
      refine List.nodup_cons.mpr ⟨?_, ih _⟩
      intro hmem
      exact ((mem_newKeys idOf rest _ _).mp hmem).2 (List.mem_cons_self _ _)

/-! ## Invariants of one enumerate pass of Retriever._rrf -/

theorem rrfPass_keys (idOf : α → String) (k : Nat) (mk : α → Nat → FEntry α) :
    ∀ (l : List α) (r : Nat) (fused : List (String × FEntry α)),
      dkeys (rrfPass idOf k mk fused l r) = dkeys fused ++ newKeys idOf l (dkeys fused) := by
  intro l
  induction l with
  | nil => intro r fused; simp [rrfPass, newKeys]
  | cons d rest ih =>
    intro r fused
    simp only [rrfPass]
    by_cases hm : idOf d ∈ dkeys fused
    · rw [ih, dkeys_dmodify, dsetdefault_of_mem _ hm, newKeys, if_pos hm]
    · rw [ih, dkeys_dmodify, dsetdefault, if_neg hm, dkeys_append, newKeys, if_neg hm]
      have hcg : newKeys idOf rest (dkeys fused ++ dkeys [(idOf d, mk d r)])
          = newKeys idOf rest (idOf d :: dkeys fused) :=
        newKeys_congr idOf rest _ _ (fun x => by simp [dkeys, or_comm])
      rw [hcg]
      simp [dkeys]

theorem rrfPass_get_mem (idOf : α → String) (k : Nat) (mk : α → Nat → FEntry α)
    (i : String) :
    ∀ (l : List α) (r : Nat) (fused : List (String × FEntry α)) (e : FEntry α),
      dget fused i = some e →
      dget (rrfPass idOf k mk fused l r) i =
        some { e with rrf := e.rrf + contribFrom idOf k l r i } := by
  intro l
  induction l with
  | nil =>
    intro r fused e he
    simp only [rrfPass]
    rw [he, contribFrom_nil, add_zero]
  | cons d rest ih =>
    intro r fused e he
    simp only [rrfPass]
    by_cases hdi : idOf d = i
    · have himem : i ∈ dkeys fused := mem_dkeys.mpr ⟨e, dget_some_mem he⟩
      rw [hdi, dsetdefault_of_mem _ himem]
      have hstep : dget (dmodify fused i (bump k r)) i = some (bump k r e) := by
        rw [dget_dmodify, if_pos rfl, he]
        rfl
      rw [ih (r + 1) _ _ hstep, contribFrom_cons, if_pos hdi]
      simp [bump, add_assoc]
    · have hstep : dget (dmodify (dsetdefault fused (idOf d) (mk d r)) (idOf d)
          (bump k r)) i = some e := by
        rw [dget_dmodify, if_neg (fun hh => hdi hh.symm)]
        by_cases hm : idOf d ∈ dkeys fused
        · rw [dsetdefault_of_mem _ hm, he]
        · rw [dsetdefault, if_neg hm, dget_append_ne _ _ (fun hh => hdi hh.symm), he]
      rw [ih (r + 1) _ _ hstep, contribFrom_cons, if_neg hdi, zero_add]

theorem rrfPass_get_new (idOf : α → String) (k : Nat) (mk : α → Nat → FEntry α)
    (i : String) :
    ∀ (l : List α) (r : Nat) (fused : List (String × FEntry α)),
      i ∉ dkeys fused →
      dget (rrfPass idOf k mk fused l r) i =
        (firstOcc idOf l i).map
          (fun p => { mk p.1 (r + p.2) with
            rrf := (mk p.1 (r + p.2)).rrf + contribFrom idOf k l r i }) := by
  intro l
  induction l with
  | nil =>
    intro r fused hni
    simp only [rrfPass, firstOcc]
    rw [dget_of_not_mem hni]
    rfl
  | cons d rest ih =>
    intro r fused hni
    simp only [rrfPass]
    by_cases hdi : idOf d = i
    · have hni2 : idOf d ∉ dkeys fused := by rw [hdi]; exact hni
      have hget1 : dget (dsetdefault fused (idOf d) (mk d r)) (idOf d) = some (mk d r) := by
        rw [dsetdefault, if_neg hni2]
        exact dget_append_self _ hni2
      have hget2 : dget (dmodify (dsetdefault fused (idOf d) (mk d r)) (idOf d)
          (bump k r)) i = some (bump k r (mk d r)) := by
        rw [dget_dmodify, if_pos hdi.symm, hget1]
        rfl
      rw [rrfPass_get_mem idOf k mk i rest (r + 1) _ _ hget2]
      rw [firstOcc, if_pos hdi, contribFrom_cons, if_pos hdi]
      simp only [Option.map_some']
      rw [show r + 0 = r by omega]
      simp [bump, add_assoc]
    · have hni2 : i ∉ dkeys (dmodify (dsetdefault fused (idOf d) (mk d r)) (idOf d)
          (bump k r)) := by
        rw [dkeys_dmodify]
        by_cases hm : idOf d ∈ dkeys fused
        · rw [dsetdefault_of_mem _ hm]; exact hni
        · rw [dkeys_dsetdefault_of_not_mem _ hm]
          intro hmem
          rcases List.mem_append.mp hmem with h1 | h1
          · exact hni h1
          · exact hdi (List.mem_singleton.mp h1).symm
      rw [ih (r + 1) _ hni2, firstOcc, if_neg hdi, contribFrom_cons, if_neg hdi,
        zero_add]
      cases hfo : firstOcc idOf rest i with
      | none => rfl
      | some p =>
        simp only [Option.map_some']
        rw [show r + 1 + p.2 = r + (p.2 + 1) by omega]

/-! ## Closed form of the fused dict built by Retriever._rrf -/

theorem rrf_fused_get (idOf : α → String) (denseL sparseL : List α) (k : Nat)
    (i : String) :
    dget (rrfPass idOf k mkSparse (rrfPass idOf k mkDense [] denseL 1) sparseL 1) i =
      fuseSpec idOf denseL sparseL k i := by
  by_cases hmem : i ∈ denseL.map idOf
  · rcases firstOcc_isSome idOf hmem with ⟨p, hfo⟩
    have hd1 : dget (rrfPass idOf k mkDense ([] : List (String × FEntry α)) denseL 1) i
        = some ⟨p.1, contrib idOf k denseL i, some (p.2 + 1), none⟩ := by
      rw [rrfPass_get_new idOf k mkDense i denseL 1 [] (by simp [dkeys]), hfo]
      simp only [Option.map_some', mkDense]
      rw [show 1 + p.2 = p.2 + 1 by omega]
      simp [contrib]
    rw [rrfPass_get_mem idOf k mkSparse i sparseL 1 _ _ hd1]
    simp only [fuseSpec, hfo, contrib]
  · have hno : firstOcc idOf denseL i = none := (firstOcc_eq_none idOf).mpr hmem
    have hzero : contrib idOf k denseL i = 0 := contribFrom_of_not_mem idOf k hmem 1
    have hni : i ∉ dkeys (rrfPass idOf k mkDense ([] : List (String × FEntry α)) denseL 1) := by
      rw [rrfPass_keys]
      simp only [dkeys_nil, List.nil_append]
      intro hh
      exact hmem ((mem_newKeys idOf denseL [] i).mp hh).1
    rw [rrfPass_get_new idOf k mkSparse i sparseL 1 _ hni]
    cases hfo : firstOcc idOf sparseL i with
    | none => simp [fuseSpec, hno, hfo]
    | some p =>
      simp only [fuseSpec, hno, hfo, Option.map_some', mkSparse]
      rw [show 1 + p.2 = p.2 + 1 by omega]
      simp only [contrib] at hzero ⊢
      simp [hzero]

theorem rrf_fused_keys_nodup (idOf : α → String) (denseL sparseL : List α) (k : Nat) :
    (dkeys (rrfPass idOf k mkSparse (rrfPass idOf k mkDense [] denseL 1) sparseL 1)).Nodup := by
  rw [rrfPass_keys, rrfPass_keys]
  simp only [dkeys_nil, List.nil_append]
  refine List.nodup_append.mpr ⟨nodup_newKeys idOf denseL [], nodup_newKeys idOf sparseL _, ?_⟩
  intro x hx hx2
  exact ((mem_newKeys idOf sparseL _ x).mp hx2).2 hx

theorem rrf_fused_mem_keys (idOf : α → String) (denseL sparseL : List α) (k : Nat)
    (i : String) :
    i ∈ dkeys (rrfPass idOf k mkSparse (rrfPass idOf k mkDense [] denseL 1) sparseL 1) ↔
      i ∈ denseL.map idOf ∨ i ∈ sparseL.map idOf := by
  rw [rrfPass_keys, rrfPass_keys]
  simp only [dkeys_nil, List.nil_append, List.mem_append, mem_newKeys]
  tauto

theorem fuseSpec_some (idOf : α → String) {denseL sparseL : List α} {k : Nat}
    {i : String} {e : FEntry α} (h : fuseSpec idOf denseL sparseL k i = some e) :
    idOf e.payload = i ∧
      e.rrf = contrib idOf k denseL i + contrib idOf k sparseL i := by
  unfold fuseSpec at h
  cases hfo : firstOcc idOf denseL i with
  | some p =>
    rw [hfo] at h
    simp only [Option.some.injEq] at h
    rw [← h]
    exact ⟨(firstOcc_some idOf hfo).2, rfl⟩
  | none =>
    rw [hfo] at h
    cases hfs : firstOcc idOf sparseL i with
    | none => rw [hfs] at h; simp at h
    | some p =>
      rw [hfs] at h
      simp only [Option.map_some', Option.some.injEq] at h
      rw [← h]
      exact ⟨(firstOcc_some idOf hfs).2, rfl⟩

theorem fuseSpec_payload (idOf : α → String) {denseL sparseL : List α} {k : Nat}
    {i : String} {e : FEntry α} (h : fuseSpec idOf denseL sparseL k i = some e) :
    (i ∈ denseL.map idOf → e.payload ∈ denseL) ∧
      (i ∉ denseL.map idOf → e.payload ∈ sparseL) := by
  unfold fuseSpec at h
  cases hfo : firstOcc idOf denseL i with
  | some p =>
    rw [hfo] at h
    simp only [Option.some.injEq] at h
    rw [← h]
    exact ⟨fun _ => (firstOcc_some idOf hfo).1,
      fun hni => absurd
        (List.mem_map.mpr ⟨p.1, (firstOcc_some idOf hfo).1, (firstOcc_some idOf hfo).2⟩)
        hni⟩
  | none =>
    rw [hfo] at h
    cases hfs : firstOcc idOf sparseL i with
    | none => rw [hfs] at h; simp at h
    | some p =>
      rw [hfs] at h
      simp only [Option.map_some', Option.some.injEq] at h
      rw [← h]
      refine ⟨fun hmem => ?_, fun _ => (firstOcc_some idOf hfs).1⟩
      rcases firstOcc_isSome idOf hmem with ⟨q, hq⟩
      rw [hfo] at hq
      cases hq

theorem fuseSpec_isSome (idOf : α → String) (denseL sparseL : List α) (k : Nat)
    (i : String) (h : i ∈ denseL.map idOf ∨ i ∈ sparseL.map idOf) :
    ∃ e, fuseSpec idOf denseL sparseL k i = some e := by
  unfold fuseSpec
  cases hfo : firstOcc idOf denseL i with
  | some p => exact ⟨_, rfl⟩
  | none =>
    have hns : i ∈ sparseL.map idOf := by
      rcases h with h | h
      · exact absurd ((firstOcc_eq_none idOf).mp hfo) (by simpa using h)
      · exact h
    rcases firstOcc_isSome idOf hns with ⟨q, hq⟩
    rw [hq]
    exact ⟨_, rfl⟩

theorem mem_rrf_iff (idOf : α → String) (denseL sparseL : List α) (k : Nat)
    (e : FEntry α) :
    e ∈ rrf idOf denseL sparseL k ↔
      fuseSpec idOf denseL sparseL k (idOf e.payload) = some e := by
  unfold rrf
  rw [(List.perm_insertionSort rrfGE _).mem_iff]
  constructor
  · intro hmem
    rcases List.mem_map.mp hmem with ⟨pr, hpr, hsnd⟩
    have hget : dget (rrfPass idOf k mkSparse (rrfPass idOf k mkDense [] denseL 1)
        sparseL 1) pr.1 = some pr.2 :=
      mem_dget (rrf_fused_keys_nodup idOf denseL sparseL k) hpr
    rw [rrf_fused_get] at hget
    have hid := (fuseSpec_some idOf hget).1
    rw [← hsnd, hid]
    exact hget
  · intro hspec
    have hget : dget (rrfPass idOf k mkSparse (rrfPass idOf k mkDense [] denseL 1)
        sparseL 1) (idOf e.payload) = some e := by
      rw [rrf_fused_get]
      exact hspec
    exact List.mem_map.mpr ⟨(idOf e.payload, e), dget_some_mem hget, rfl⟩

theorem rrf_ids_perm (idOf : α → String) (denseL sparseL : List α) (k : Nat) :
    ((rrf idOf denseL sparseL k).map (fun e => idOf e.payload)).Perm
      (dkeys (rrfPass idOf k mkSparse (rrfPass idOf k mkDense [] denseL 1) sparseL 1)) := by
  unfold rrf
  refine ((List.perm_insertionSort rrfGE _).map _).trans ?_
  rw [List.map_map]
  have heq : ((rrfPass idOf k mkSparse (rrfPass idOf k mkDense [] denseL 1) sparseL 1).map
      ((fun e => idOf e.payload) ∘ Prod.snd)) =
      dkeys (rrfPass idOf k mkSparse (rrfPass idOf k mkDense [] denseL 1) sparseL 1) := by
    refine List.map_congr_left ?_
    intro p hp
    have hget : dget (rrfPass idOf k mkSparse (rrfPass idOf k mkDense [] denseL 1)
        sparseL 1) p.1 = some p.2 :=
      mem_dget (rrf_fused_keys_nodup idOf denseL sparseL k) hp
    rw [rrf_fused_get] at hget
    exact (fuseSpec_some idOf hget).1
  rw [heq]

theorem rrf_ids_nodup (idOf : α → String) (denseL sparseL : List α) (k : Nat) :
    ((rrf idOf denseL sparseL k).map (fun e => idOf e.payload)).Nodup :=
  (rrf_ids_perm idOf denseL sparseL k).nodup_iff.mpr
    (rrf_fused_keys_nodup idOf denseL sparseL k)

theorem rrf_ids_mem (idOf : α → String) (denseL sparseL : List α) (k : Nat)
    (i : String) :
    i ∈ (rrf idOf denseL sparseL k).map (fun e => idOf e.payload) ↔
      i ∈ denseL.map idOf ∨ i ∈ sparseL.map idOf := by
  rw [(rrf_ids_perm idOf denseL sparseL k).mem_iff]
  exact rrf_fused_mem_keys idOf denseL sparseL k i

/-! ## Contributions under distinct ids, and order of the fused output -/

theorem contribFrom_nodup (idOf : α → String) (k : Nat) :
    ∀ (l : List α), (l.map idOf).Nodup → ∀ (i : String) (r : Nat),
      contribFrom idOf k l r i =
        (match firstOcc idOf l i with
          | some p => 1 / ((k : ℚ) + ((r + p.2 : Nat) : ℚ))
          | none => 0) := by
  intro l
  induction l with
  | nil => intro _ i r; rfl
  | cons d rest ih =>
    intro hnd i r
    simp only [List.map_cons, List.nodup_cons] at hnd
    by_cases hdi : idOf d = i
    · rw [contribFrom_cons, if_pos hdi, firstOcc, if_pos hdi]
      have hni : i ∉ rest.map idOf := by rw [← hdi]; exact hnd.1
      rw [contribFrom_of_not_mem idOf k hni (r + 1), add_zero]
      norm_num
    · rw [contribFrom_cons, if_neg hdi, firstOcc, if_neg hdi, zero_add,
        ih hnd.2 i (r + 1)]
      cases hfo : firstOcc idOf rest i with
      | none => rfl
      | some p =>
        simp only [Option.map_some']
        rw [show r + 1 + p.2 = r + (p.2 + 1) by omega]

theorem contrib_eq_posContrib (idOf : α → String) (k : Nat) {l : List α}
    (h : (l.map idOf).Nodup) (i : String) :
    contrib idOf k l i = posContrib idOf k l i := by
  rw [contrib, contribFrom_nodup idOf k l h i 1, posContrib]
  cases hfo : firstOcc idOf l i with
  | none => rfl
  | some p =>
    simp only
    rw [show 1 + p.2 = p.2 + 1 by omega]
    push_cast
    ring

theorem posContrib_of_not_mem (idOf : α → String) (k : Nat) {l : List α}
    {i : String} (h : i ∉ l.map idOf) : posContrib idOf k l i = 0 := by
  rw [posContrib, (firstOcc_eq_none idOf).mpr h]

theorem posContrib_head (idOf : α → String) (k : Nat) {l : List α} {a : α}
    (h : l.head? = some a) : posContrib idOf k l (idOf a) = 1 / ((k : ℚ) + 1) := by
  cases l with
  | nil => cases h
  | cons d rest =>
    have hda : d = a := by simpa using h
    rw [posContrib, firstOcc, if_pos (by rw [hda])]
    norm_num

theorem rrf_sorted (idOf : α → String) (denseL sparseL : List α) (k : Nat) :
    (rrf idOf denseL sparseL k).Sorted rrfGE := by
  unfold rrf
  exact List.sorted_insertionSort rrfGE _

theorem pair_mem_rrf (idOf : α → String) (A B : List α) (k : Nat) (p : String × ℚ) :
    p ∈ (rrf idOf A B k).map (fun e => (idOf e.payload, e.rrf)) ↔
      ((p.1 ∈ A.map idOf ∨ p.1 ∈ B.map idOf) ∧
        p.2 = contrib idOf k A p.1 + contrib idOf k B p.1) := by
  constructor
  · intro h
    rcases List.mem_map.mp h with ⟨e, he, hpe⟩
    have hspec := (mem_rrf_iff idOf A B k e).mp he
    rcases fuseSpec_some idOf hspec with ⟨_, hrrf⟩
    rw [← hpe]
    exact ⟨(rrf_ids_mem idOf A B k _).mp (List.mem_map.mpr ⟨e, he, rfl⟩), hrrf⟩
  · rintro ⟨hmem, hsc⟩
    rcases fuseSpec_isSome idOf A B k p.1 hmem with ⟨e, he⟩
    have hid := (fuseSpec_some idOf he).1
    have hrrf := (fuseSpec_some idOf he).2
    have hein : e ∈ rrf idOf A B k :=
      (mem_rrf_iff idOf A B k e).mpr (by rw [hid]; exact he)
    refine List.mem_map.mpr ⟨e, hein, ?_⟩
    cases p with
    | mk p1 p2 =>
      simp only at hid hrrf hsc ⊢
      rw [hid, hrrf, hsc]

/-! ## Lemmas about search_bm25 -/

theorem insertionSort_all {γ : Type} (r : γ → γ → Prop) [DecidableRel r] :
    ∀ l : List γ, (∀ a ∈ l, ∀ b ∈ l, r a b) → List.insertionSort r l = l := by
  intro l
  induction l with
  | nil => intro _; rfl
  | cons a t ih =>
    intro h
    rw [List.insertionSort, ih (fun x hx y hy =>
      h x (List.mem_cons_of_mem a hx) y (List.mem_cons_of_mem a hy))]
    cases t with
    | nil => rfl
    | cons b t2 =>
      rw [List.orderedInsert,
        if_pos (h a (List.mem_cons_self a _) b (List.mem_cons_of_mem a (List.mem_cons_self b _)))]

theorem search_bm25_length (docs : List SRow) (query : String) (k : Nat) :
    (search_bm25 docs query k).length = min k docs.length := by
  unfold search_bm25
  by_cases h : docs = []
  · rw [if_pos h, h]
    simp
  · rw [if_neg h]
    simp only [List.length_map, List.length_take,
      (List.perm_insertionSort scoreGE _).length_eq]

theorem search_bm25_of_tokenize_nil (docs : List SRow) (query : String) (k : Nat)
    (hq : tokenize query = []) :
    search_bm25 docs query k =
      (docs.take k).map (fun d => ⟨d.id, d.text, rowMeta d, some 0⟩) := by
  unfold search_bm25
  by_cases h : docs = []
  · rw [if_pos h, h]
    simp
  · rw [if_neg h, hq]
    have hsc : ∀ corpus doc, bm25ScoreDoc corpus [] doc = (0 : ℝ) := fun _ _ => rfl
    simp only [hsc]
    rw [insertionSort_all scoreGE _ ?_]
    · rw [← List.map_take, List.map_map]
      rfl
    · intro a ha b hb
      rcases List.mem_map.mp ha with ⟨d, _, hd⟩
      rcases List.mem_map.mp hb with ⟨d2, _, hd2⟩
      show b.2 ≤ a.2
      rw [← hd, ← hd2]

/-! ## Lemmas about keyed replace-writes into the two stores -/

theorem keyrep_filter_len {γ : Type} (key : γ → String) (rows : List γ) (p : γ) :
    (((rows.filter (fun x => key x != key p)) ++ [p]).filter
      (fun x => key x == key p)).length = 1 := by
  rw [List.filter_append, List.filter_filter]
  have h1 : (rows.filter (fun x => (key x == key p) && (key x != key p))) = [] := by
    apply List.filter_eq_nil_iff.mpr
    intro x _
    by_cases h : key x = key p <;> simp [h]
  have h2 : ([p].filter (fun x => key x == key p)) = [p] := by
    simp
  rw [h1, h2]
  rfl

theorem keyrep_idem {γ : Type} (key : γ → String) (rows : List γ) (p : γ) :
    (((rows.filter (fun x => key x != key p)) ++ [p]).filter
      (fun x => key x != key p)) ++ [p] =
      (rows.filter (fun x => key x != key p)) ++ [p] := by
  rw [List.filter_append, List.filter_filter]
  have h1 : (fun x => (key x != key p) && (key x != key p)) =
      (fun x => key x != key p) := by
    funext x
    exact Bool.and_self _
  have h2 : ([p].filter (fun x => key x != key p)) = [] := by
    simp
  rw [h1, h2, List.append_nil]

theorem exists_keyrep {γ : Type} (key txt : γ → String) (rows : List γ) (p : γ)
    (j u : String) :
    (∃ r ∈ (rows.filter (fun x => key x != key p)) ++ [p], key r = j ∧ txt r = u) ↔
      ((j = key p ∧ u = txt p) ∨
        (j ≠ key p ∧ ∃ r ∈ rows, key r = j ∧ txt r = u)) := by
  constructor
  · rintro ⟨r, hr, hkey, htxt⟩
    rcases List.mem_append.mp hr with hr2 | hr2
    · rcases List.mem_filter.mp hr2 with ⟨hmem, hne⟩
      have hne2 : key r ≠ key p := by simpa using hne
      exact Or.inr ⟨by rw [← hkey]; exact hne2, r, hmem, hkey, htxt⟩
    · rcases List.mem_singleton.mp hr2 with rfl
      exact Or.inl ⟨hkey.symm, htxt.symm⟩
  · rintro (⟨hj, hu⟩ | ⟨hj, r, hr, hkey, htxt⟩)
    · exact ⟨p, List.mem_append_right _ (List.mem_singleton_self p), hj.symm, hu.symm⟩
    · refine ⟨r, List.mem_append_left _ (List.mem_filter.mpr ⟨hr, ?_⟩), hkey, htxt⟩
      simp only [bne_iff_ne, ne_eq, decide_not]
      simp only [hkey]
      simpa using hj

theorem repFold_mem_preserve {γ δ : Type} (key : γ → String) (g : δ → γ) :
    ∀ (rows : List δ) (init : List γ) (i : String), (∃ s ∈ init, key s = i) →
      ∃ s ∈ rows.foldl (fun c q => (c.filter (fun x => key x != key (g q))) ++ [g q]) init,
        key s = i := by
  intro rows
  induction rows with
  | nil => intro init i h; exact h
  | cons q rest ih =>
    intro init i h
    rw [List.foldl_cons]
    refine ih _ i ?_
    rcases h with ⟨s, hs, hsi⟩
    by_cases hk : key s = key (g q)
    · exact ⟨g q, List.mem_append_right _ (List.mem_singleton_self _), by rw [← hk, hsi]⟩
    · refine ⟨s, List.mem_append_left _ (List.mem_filter.mpr ⟨hs, ?_⟩), hsi⟩
      simpa using hk

theorem repFold_mem {γ δ : Type} (key : γ → String) (g : δ → γ) :
    ∀ (rows : List δ) (init : List γ) (r : δ), r ∈ rows →
      ∃ s ∈ rows.foldl (fun c q => (c.filter (fun x => key x != key (g q))) ++ [g q]) init,
        key s = key (g r) := by
  intro rows
  induction rows with
  | nil => intro init r hr; cases hr
  | cons q rest ih =>
    intro init r hr
    rw [List.foldl_cons]
    rcases List.mem_cons.mp hr with h | h
    · rw [h]
      exact repFold_mem_preserve key g rest _ _
        ⟨g q, List.mem_append_right _ (List.mem_singleton_self _), rfl⟩
    · exact ih _ r h

theorem consistent_fold (enc : String → V) :
    ∀ (rows : List (String × String × List (String × String)))
      (dense : List (DRow V)) (sparse : List SRow),
      (∀ j u, (∃ r ∈ dense, r.id = j ∧ r.text = u) ↔
        (∃ s ∈ sparse, s.id = j ∧ s.text = u)) →
      ∀ j u,
        (∃ r ∈ rows.foldl
            (fun c q => chromaReplace c ⟨q.1, q.2.1, q.2.2, enc q.2.1⟩) dense,
          r.id = j ∧ r.text = u) ↔
        (∃ s ∈ rows.foldl
            (fun c q => sqliteReplace c ⟨q.1, q.2.1, metaGet q.2.2 "source"⟩) sparse,
          s.id = j ∧ s.text = u) := by
  intro rows
  induction rows with
  | nil => intro dense sparse h j u; exact h j u
  | cons q rest ih =>
    intro dense sparse h j u
    rw [List.foldl_cons, List.foldl_cons]
    refine ih _ _ ?_ j u
    intro j2 u2
    show (∃ r ∈ chromaReplace dense ⟨q.1, q.2.1, q.2.2, enc q.2.1⟩, r.id = j2 ∧ r.text = u2) ↔ _
    rw [show chromaReplace dense ⟨q.1, q.2.1, q.2.2, enc q.2.1⟩ =
        (dense.filter (fun x => x.id != DRow.id ⟨q.1, q.2.1, q.2.2, enc q.2.1⟩)) ++
          [⟨q.1, q.2.1, q.2.2, enc q.2.1⟩] from rfl,
      show sqliteReplace sparse ⟨q.1, q.2.1, metaGet q.2.2 "source"⟩ =
        (sparse.filter (fun x => x.id != SRow.id ⟨q.1, q.2.1, metaGet q.2.2 "source"⟩)) ++
          [⟨q.1, q.2.1, metaGet q.2.2 "source"⟩] from rfl,
      exists_keyrep DRow.id DRow.text dense ⟨q.1, q.2.1, q.2.2, enc q.2.1⟩ j2 u2,
      exists_keyrep SRow.id SRow.text sparse ⟨q.1, q.2.1, metaGet q.2.2 "source"⟩ j2 u2]
    exact or_congr Iff.rfl (and_congr Iff.rfl (h j2 u2))

theorem zip_map_fst :
    ∀ (a b : List String) (c : List (List (String × String))),
      a.length ≤ b.length → a.length ≤ c.length →
      (a.zip (b.zip c)).map Prod.fst = a := by
  intro a
  induction a with
  | nil => intro b c _ _; rfl
  | cons x a ih =>
    intro b c h1 h2
    cases b with
    | nil => simp at h1
    | cons y b =>
      cases c with
      | nil => simp at h2
      | cons z c =>
        rw [List.zip_cons_cons, List.zip_cons_cons, List.map_cons,
          ih b c (by simpa using h1) (by simpa using h2)]

/-! ## Claim theorems -/

/-- C1: for every pair of ranked input lists (ranked lists carry distinct ids)
and every k_rrf, the fused score of each output entry is the sum, over the
lists containing its id, of 1/(k_rrf + rank), where rank is the 1-based
position of the id in that list (posContrib); an id appearing in only one
list receives exactly that list's contribution, and an id in both lists
receives the sum of both contributions. -/
theorem c1_rrf_score_is_sum_of_rank_reciprocals {α : Type} (idOf : α → String)
    (denseL sparseL : List α) (k : Nat)
    (hd : (denseL.map idOf).Nodup) (hs : (sparseL.map idOf).Nodup) :
    ∀ e ∈ rrf idOf denseL sparseL k,
      e.rrf = posContrib idOf k denseL (idOf e.payload) +
          posContrib idOf k sparseL (idOf e.payload) ∧
      (idOf e.payload ∉ sparseL.map idOf →
        e.rrf = posContrib idOf k denseL (idOf e.payload)) ∧
      (idOf e.payload ∉ denseL.map idOf →
        e.rrf = posContrib idOf k sparseL (idOf e.payload)) := by
  intro e he
  have hspec := (mem_rrf_iff idOf denseL sparseL k e).mp he
  have hrrf := (fuseSpec_some idOf hspec).2
  rw [contrib_eq_posContrib idOf k hd, contrib_eq_posContrib idOf k hs] at hrrf
  refine ⟨hrrf, fun hns => ?_, fun hnd => ?_⟩
  · rw [hrrf, posContrib_of_not_mem idOf k hns, add_zero]
  · rw [hrrf, posContrib_of_not_mem idOf k hnd, zero_add]

/-- Witness for C1 at dense = [docA], sparse = [docB], k_rrf = 60: the
output entry for "a" scores its dense contribution 1/61 plus the sparse
contribution 0. -/
theorem c1_witness :
    (([docA].map SrcDoc.id).Nodup ∧ ([docB].map SrcDoc.id).Nodup ∧
      (⟨docA, 1/61, some 1, none⟩ : FEntry SrcDoc) ∈ rrf SrcDoc.id [docA] [docB] 60) ∧
    (1 : ℚ)/61 = posContrib SrcDoc.id 60 [docA] "a" + posContrib SrcDoc.id 60 [docB] "a" := by
  have hmem : (⟨docA, 1/61, some 1, none⟩ : FEntry SrcDoc) ∈ rrf SrcDoc.id [docA] [docB] 60 := by
    simp [rrf, rrfPass, dsetdefault, dmodify, dkeys, bump, mkDense, mkSparse, docA, docB,
      List.insertionSort, List.orderedInsert, rrfGE]
    norm_num
  refine ⟨⟨by decide, by decide, hmem⟩, ?_⟩
  exact (c1_rrf_score_is_sum_of_rank_reciprocals SrcDoc.id [docA] [docB] 60
    (by decide) (by decide) _ hmem).1

/-- C5: fusion is symmetric in its two input lists: fusing (A, B) and (B, A)
with the same k_rrf yields the same set of (id, fused score) pairs. -/
theorem c5_rrf_symmetric {α : Type} (idOf : α → String) (A B : List α) (k : Nat) :
    ((rrf idOf A B k).map (fun e => (idOf e.payload, e.rrf))).toFinset =
      ((rrf idOf B A k).map (fun e => (idOf e.payload, e.rrf))).toFinset := by
  ext p
  simp only [List.mem_toFinset]
  rw [pair_mem_rrf, pair_mem_rrf]
  constructor
  · rintro ⟨hm, hs⟩
    exact ⟨hm.symm, by rw [hs, add_comm]⟩
  · rintro ⟨hm, hs⟩
    exact ⟨hm.symm, by rw [hs, add_comm]⟩

/-- C6: for every k_rrf > 0, an item ranked first in both contributing lists
(of distinct ids) scores strictly higher than an item ranked first in one
list and absent from the other. -/
theorem c6_both_first_beats_single_first {α : Type} (idOf : α → String) (k : Nat)
    (A B C D : List α) (a b c : α) (e f : FEntry α)
    (hk : 0 < k)
    (hA : (A.map idOf).Nodup) (hB : (B.map idOf).Nodup) (hC : (C.map idOf).Nodup)
    (hA1 : A.head? = some a) (hB1 : B.head? = some b) (hab : idOf b = idOf a)
    (hC1 : C.head? = some c) (hD : idOf c ∉ D.map idOf)
    (he : e ∈ rrf idOf A B k) (hei : idOf e.payload = idOf a)
    (hf : f ∈ rrf idOf C D k) (hfi : idOf f.payload = idOf c) :
    f.rrf < e.rrf := by
  have hespec := (mem_rrf_iff idOf A B k e).mp he
  have herrf := (fuseSpec_some idOf hespec).2
  rw [hei, contrib_eq_posContrib idOf k hA, contrib_eq_posContrib idOf k hB,
    posContrib_head idOf k hA1, ← hab, posContrib_head idOf k hB1] at herrf
  have hfspec := (mem_rrf_iff idOf C D k f).mp hf
  have hfrrf := (fuseSpec_some idOf hfspec).2
  have hzero : contrib idOf k D (idOf c) = 0 := by
    rw [contrib]
    exact contribFrom_of_not_mem idOf k hD 1
  rw [hfi, contrib_eq_posContrib idOf k hC, posContrib_head idOf k hC1, hzero,
    add_zero] at hfrrf
  rw [herrf, hfrrf]
  have hpos : 0 < 1 / ((k : ℚ) + 1) := by positivity
  linarith

/-- Witness for C6 at k_rrf = 60: the item ranked first in both [docA] and
[docA] scores 2/61, the item ranked first in [docB] alone scores 1/61, and
1/61 < 2/61. -/
theorem c6_witness :
    ((0 : Nat) < 60 ∧
      ([docA].map SrcDoc.id).Nodup ∧ ([docB].map SrcDoc.id).Nodup ∧
      ([docA].head? = some docA) ∧ ([docB].head? = some docB) ∧
      SrcDoc.id docB ∉ ([] : List SrcDoc).map SrcDoc.id ∧
      (⟨docA, 2/61, some 1, none⟩ : FEntry SrcDoc) ∈ rrf SrcDoc.id [docA] [docA] 60 ∧
      (⟨docB, 1/61, some 1, none⟩ : FEntry SrcDoc) ∈ rrf SrcDoc.id [docB] [] 60) ∧
    (1 : ℚ)/61 < 2/61 := by
  have he : (⟨docA, 2/61, some 1, none⟩ : FEntry SrcDoc) ∈ rrf SrcDoc.id [docA] [docA] 60 := by
    simp [rrf, rrfPass, dsetdefault, dmodify, dkeys, bump, mkDense, mkSparse, docA,
      List.insertionSort, List.orderedInsert, rrfGE]
    norm_num
  have hf : (⟨docB, 1/61, some 1, none⟩ : FEntry SrcDoc) ∈ rrf SrcDoc.id [docB] [] 60 := by
    simp [rrf, rrfPass, dsetdefault, dmodify, dkeys, bump, mkDense, mkSparse, docB,
      List.insertionSort, List.orderedInsert, rrfGE]
    norm_num
  refine ⟨⟨by decide, by decide, by decide, rfl, rfl, by decide, he, hf⟩, ?_⟩
  exact c6_both_first_beats_single_first SrcDoc.id 60 [docA] [docA] [docB] []
    docA docA docB _ _ (by decide) (by decide) (by decide) (by decide)
    rfl rfl rfl rfl (by decide) he rfl hf rfl

/-- C9: with an empty corpus the sparse search returns an empty sequence for
every query and every k, and fusing two empty result lists returns an empty
sequence for every k_rrf, neither raising an error. -/
theorem c9_empty_corpus_empty_results {α : Type} (idOf : α → String)
    (query : String) (k k2 : Nat) :
    search_bm25 [] query k = [] ∧ rrf idOf [] [] k2 = [] := by
  constructor
  · unfold search_bm25
    rw [if_pos rfl]
  · rfl

/-- C10: the fused output has exactly one entry per distinct id occurring in
the union of the two input lists (no duplicates, no foreign ids), and an
entry whose id occurs in the dense list carries a dense-list payload (its
text and metadata), falling back to the sparse occurrence otherwise; the
sparse occurrence of a shared id contributes only to the score. -/
theorem c10_one_entry_per_id {α : Type} (idOf : α → String) (A B : List α) (k : Nat) :
    ((rrf idOf A B k).map (fun e => idOf e.payload)).Nodup ∧
    (∀ i, i ∈ (rrf idOf A B k).map (fun e => idOf e.payload) ↔
      (i ∈ A.map idOf ∨ i ∈ B.map idOf)) ∧
    (∀ e ∈ rrf idOf A B k,
      (idOf e.payload ∈ A.map idOf → e.payload ∈ A) ∧
      (idOf e.payload ∉ A.map idOf → e.payload ∈ B)) := by
  refine ⟨rrf_ids_nodup idOf A B k, rrf_ids_mem idOf A B k, ?_⟩
  intro e he
  exact fuseSpec_payload idOf ((mem_rrf_iff idOf A B k e).mp he)

/-- Witness for C10: fusing dense [docA] with sparse [docA2, docB], where
docA and docA2 share id "a" with different texts, the output entry for "a"
carries the dense payload docA. -/
theorem c10_witness :
    ((⟨docA, 2/61, some 1, none⟩ : FEntry SrcDoc) ∈ rrf SrcDoc.id [docA] [docA2, docB] 60 ∧
      SrcDoc.id (FEntry.payload (α := SrcDoc) ⟨docA, 2/61, some 1, none⟩) ∈
        [docA].map SrcDoc.id) ∧
    (FEntry.payload (α := SrcDoc) ⟨docA, 2/61, some 1, none⟩) ∈ [docA] := by
  have he : (⟨docA, 2/61, some 1, none⟩ : FEntry SrcDoc) ∈
      rrf SrcDoc.id [docA] [docA2, docB] 60 := by
    simp [rrf, rrfPass, dsetdefault, dmodify, dkeys, bump, mkDense, mkSparse, docA, docA2,
      docB, List.insertionSort, List.orderedInsert, rrfGE]
    norm_num
  exact ⟨⟨he, by decide⟩,
    ((c10_one_entry_per_id SrcDoc.id [docA] [docA2, docB] 60).2.2 _ he).1 (by decide)⟩

/-- C7: for every dense search outcome, corpus, query and parameters,
hybrid_search returns at most top_k results, ordered by fused RRF score from
highest to lowest, even when the two contributing lists together hold more
than top_k distinct documents. -/
theorem c7_hybrid_truncation_and_order (searchDense : String → Nat → List Hit)
    (docs : List SRow) (query : String) (k_dense k_sparse k_rrf top_k : Nat) :
    (hybrid_search searchDense docs query k_dense k_sparse k_rrf top_k).length ≤ top_k ∧
      (hybrid_search searchDense docs query k_dense k_sparse k_rrf top_k).Sorted rrfGE := by
  constructor
  · unfold hybrid_search
    exact List.length_take_le _ _
  · unfold hybrid_search
    exact (rrf_sorted Hit.id _ _ k_rrf).sublist (List.take_sublist _ _)

/-- C2 counterexample: the corpus holds the single document rowD1 = "hello";
the query "world" shares no token with it, yet search_bm25 returns rowD1
(with BM25 score 0) instead of excluding it. -/
theorem c2_counterexample :
    search_bm25 [rowD1] "world" 6 = [⟨"d1", "hello", none, some 0⟩] ∧
      (tokenize "hello").filter (fun t => (tokenize "world").contains t) = [] := by
  refine ⟨?_, by decide⟩
  have htokq : tokenize "world" = ["world"] := by decide
  have htokd : tokenize "hello" = ["hello"] := by decide
  have hidf : idfOf [["hello"]] "world" = 0 := by
    unfold idfOf
    rw [if_neg (by decide)]
  have hscore : bm25ScoreDoc [["hello"]] ["world"] ["hello"] = 0 := by
    unfold bm25ScoreDoc
    rw [List.foldl_cons, List.foldl_nil, hidf]
    ring
  unfold search_bm25
  rw [if_neg (by decide)]
  simp only [List.map_cons, List.map_nil, rowD1, htokd, htokq, hscore,
    List.insertionSort, List.orderedInsert, List.take, rowMeta]

/-- C2 amended: the sparse search does not exclude documents with BM25 score
0; it returns the top min(k, corpus size) documents of the score-descending
order, so when fewer than k documents match the result is padded with
zero-score documents rather than shortened to the matching ones. -/
theorem c2_amended_length_is_min (docs : List SRow) (query : String) (k : Nat) :
    (search_bm25 docs query k).length = min k docs.length :=
  search_bm25_length docs query k

/-- C8 counterexample: the corpus [rowD1] is non-empty and the query ""
tokenizes to zero terms, yet search_bm25 returns [rowD1] with score 0
rather than an empty sequence. -/
theorem c8_counterexample :
    tokenize "" = [] ∧ ([rowD1] : List SRow) ≠ [] ∧
      search_bm25 [rowD1] "" 6 = [⟨"d1", "hello", none, some 0⟩] := by
  refine ⟨by decide, by decide, ?_⟩
  rw [search_bm25_of_tokenize_nil [rowD1] "" 6 (by decide)]
  rfl

/-- C8 amended: on a query that tokenizes to zero terms, every document
scores 0 and the sparse search returns the first min(k, corpus size)
documents in corpus order, each carrying score 0 (so the result is empty
only when the corpus is). -/
theorem c8_amended_zero_term_query (docs : List SRow) (query : String) (k : Nat)
    (hq : tokenize query = []) :
    search_bm25 docs query k =
      (docs.take k).map (fun d => ⟨d.id, d.text, rowMeta d, some 0⟩) :=
  search_bm25_of_tokenize_nil docs query k hq

/-- Witness for C8 amended at the non-empty corpus [rowD1] and query "". -/
theorem c8_witness :
    tokenize "" = [] ∧
      search_bm25 [rowD1] "" 6 =
        (([rowD1] : List SRow).take 6).map (fun d => ⟨d.id, d.text, rowMeta d, some 0⟩) :=
  ⟨by decide, c8_amended_zero_term_query [rowD1] "" 6 (by decide)⟩

/-- Ingesting one (id, text, meta) triple writes one keyed replace into each
store. -/
theorem add_texts_singleton (enc : String → V) (uuids : List String)
    (st : RetState V) (t : String) (m : List (String × String)) (i : String) :
    add_texts enc uuids st [t] (some [m]) (some [i]) =
      ⟨chromaReplace st.dense ⟨i, t, m, enc t⟩,
       sqliteReplace st.sparse ⟨i, t, metaGet m "source"⟩⟩ := by
  unfold add_texts
  rw [if_neg (by simp)]
  rfl

/-- C3: ingesting the same (id, text, meta) triple twice leaves the stores
exactly as after the first call, with exactly one row under that id in the
SQLite docs table and one in the Chroma collection; the second call
succeeds and creates no duplicate. -/
theorem c3_repeat_ingest_idempotent {V : Type} (enc : String → V)
    (uuids uuids2 : List String) (st : RetState V) (docId txt : String)
    (meta : List (String × String)) :
    add_texts enc uuids2 (add_texts enc uuids st [txt] (some [meta]) (some [docId]))
        [txt] (some [meta]) (some [docId]) =
      add_texts enc uuids st [txt] (some [meta]) (some [docId]) ∧
    ((add_texts enc uuids st [txt] (some [meta]) (some [docId])).sparse.filter
        (fun s => s.id == docId)).length = 1 ∧
    ((add_texts enc uuids st [txt] (some [meta]) (some [docId])).dense.filter
        (fun r => r.id == docId)).length = 1 := by
  simp only [add_texts_singleton]
  refine ⟨?_, ?_, ?_⟩
  · congr 1
    · exact keyrep_idem DRow.id st.dense ⟨docId, txt, meta, enc txt⟩
    · exact keyrep_idem SRow.id st.sparse ⟨docId, txt, metaGet meta "source"⟩
  · exact keyrep_filter_len SRow.id st.sparse ⟨docId, txt, metaGet meta "source"⟩
  · exact keyrep_filter_len DRow.id st.dense ⟨docId, txt, meta, enc txt⟩

/-- C4: a completed add_texts call (lengths of ids and metadatas matching
texts, as the code requires) keeps the Chroma collection and the SQLite docs
table holding the same ids with the same text, and every ingested id is
visible in both stores when the call returns. -/
theorem c4_ingest_keeps_stores_consistent {V : Type} (enc : String → V)
    (uuids : List String) (st : RetState V) (texts : List String)
    (metadatas : Option (List (List (String × String)))) (ids : Option (List String))
    (hcons : consistent st)
    (hlen1 : (ids.getD uuids).length = texts.length)
    (hlen2 : (metadatas.getD (texts.map (fun _ => []))).length = texts.length) :
    consistent (add_texts enc uuids st texts metadatas ids) ∧
      ∀ i ∈ ids.getD uuids,
        (∃ r ∈ (add_texts enc uuids st texts metadatas ids).dense, r.id = i) ∧
        (∃ s ∈ (add_texts enc uuids st texts metadatas ids).sparse, s.id = i) := by
  by_cases htexts : texts = []
  · subst htexts
    refine ⟨by simpa [add_texts] using hcons, ?_⟩
    intro i hi
    have hnil : ids.getD uuids = [] := List.length_eq_zero.mp (by simpa using hlen1)
    rw [hnil] at hi
    cases hi
  · have hgoal : add_texts enc uuids st texts metadatas ids =
        ⟨chromaAdd st.dense
          (((ids.getD uuids).zip (texts.zip (metadatas.getD (texts.map (fun _ => []))))).map
            (fun r => ⟨r.1, r.2.1, r.2.2, enc r.2.1⟩)),
         sqlite_add st.sparse
          (((ids.getD uuids).zip (texts.zip (metadatas.getD (texts.map (fun _ => []))))).map
            (fun r => ⟨r.1, r.2.1, metaGet r.2.2 "source"⟩))⟩ := by
      unfold add_texts
      rw [if_neg htexts]
    rw [hgoal]
    constructor
    · unfold consistent
      intro j u
      dsimp only
      simp only [chromaAdd, sqlite_add, List.foldl_map]
      exact consistent_fold enc _ st.dense st.sparse hcons j u
    · intro i hi
      have h1 : (ids.getD uuids).length ≤ texts.length := le_of_eq hlen1
      have h2 : (ids.getD uuids).length ≤
          (metadatas.getD (texts.map (fun _ => []))).length := by
        rw [hlen1, hlen2]
      have hrows := zip_map_fst (ids.getD uuids) texts
        (metadatas.getD (texts.map (fun _ => []))) h1 h2
      rw [← hrows] at hi
      rcases List.mem_map.mp hi with ⟨q, hq, hq1⟩
      constructor
      · dsimp only
        simp only [chromaAdd, sqlite_add, List.foldl_map]
        rcases repFold_mem DRow.id
            (fun r => (⟨r.1, r.2.1, r.2.2, enc r.2.1⟩ : DRow V)) _ st.dense q hq with
          ⟨s, hs, hsid⟩
        exact ⟨s, hs, by rw [hsid]; exact hq1⟩
      · dsimp only
        simp only [chromaAdd, sqlite_add, List.foldl_map]
        rcases repFold_mem SRow.id
            (fun r => (⟨r.1, r.2.1, metaGet r.2.2 "source"⟩ : SRow)) _ st.sparse q hq with
          ⟨s, hs, hsid⟩
        exact ⟨s, hs, by rw [hsid]; exact hq1⟩

/-- Witness for C4: ingesting ("d1", "hello") into empty stores keeps them
consistent and makes "d1" visible in both. -/
theorem c4_witness :
    (consistent (⟨[], []⟩ : RetState Unit) ∧
      ((some ["d1"]).getD ([] : List String)).length = ["hello"].length ∧
      ((some [([] : List (String × String))]).getD
        (["hello"].map (fun _ => []))).length = ["hello"].length) ∧
    (consistent (add_texts (fun _ => ()) [] (⟨[], []⟩ : RetState Unit)
        ["hello"] (some [[]]) (some ["d1"])) ∧
      ∀ i ∈ (some ["d1"]).getD ([] : List String),
        (∃ r ∈ (add_texts (fun _ => ()) [] (⟨[], []⟩ : RetState Unit)
            ["hello"] (some [[]]) (some ["d1"])).dense, r.id = i) ∧
        (∃ s ∈ (add_texts (fun _ => ()) [] (⟨[], []⟩ : RetState Unit)
            ["hello"] (some [[]]) (some ["d1"])).sparse, s.id = i)) := by
  have hcons : consistent (⟨[], []⟩ : RetState Unit) := by
    intro i t
    simp
  exact ⟨⟨hcons, by decide, by decide⟩,
    c4_ingest_keeps_stores_consistent (fun _ => ()) [] (⟨[], []⟩ : RetState Unit)
      ["hello"] (some [[]]) (some ["d1"]) hcons (by decide) (by decide)⟩
